import Mathlib

/-!
Verification of the scheduling and coordination core of the
pi-parallel-agents repository against its natural-language specification.

The TypeScript sources are shallowly embedded:
strings are sequences of unicode scalar values (Lean `String` / `List Char`),
JS numbers that matter for control flow are embedded as rationals with an
explicit non-finite tag, fallible code returns `Option`/`Except`, and the
scheduler nondeterminism of the concurrency primitives is abstracted by
explicit schedule parameters described at each definition.
-/

/- ===================================================================
   Retry policy, from src/executor.ts lines 32-65
   =================================================================== -/

/-- Retry configuration, from the RetryConfig type referenced by
src/executor.ts (fields used by shouldRetry). Absent optional fields are
`none`. -/
structure RetryConfig where
  maxAttempts : Nat
  backoffMs : Nat
  retryOn : Option (List String) := none
  skipOn : Option (List String) := none
deriving Repr, DecidableEq

/-- Lowercase a string as a list of scalar values, the embedding of the
JS toLowerCase applied before substring search. -/
def lowerL (s : String) : List Char :=
  s.toList.map Char.toLower

/-- Case-insensitive substring test: the embedding of the source idiom
`error.toLowerCase().includes(pattern.toLowerCase())`. -/
def matchesCI (error pattern : String) : Bool :=
  decide (lowerL pattern <:+: lowerL error)

/-- Embedding of shouldRetry, src/executor.ts lines 32-57.  The source
guard `retry.skipOn && retry.skipOn.length > 0` followed by the search
loop is equivalent to an existence test over the (defaulted-empty)
skipOn list, and likewise for retryOn. -/
def shouldRetry (error : String) (retry : Option RetryConfig) : Bool :=
  match retry with
  | none => false
  | some r =>
    if (r.skipOn.getD []).any (fun p => matchesCI error p) then
      false
    else if (r.retryOn.getD []).isEmpty then
      true
    else
      (r.retryOn.getD []).any (fun p => matchesCI error p)

example : shouldRetry "fatal error: out of memory"
    (some { maxAttempts := 3, backoffMs := 1000,
            skipOn := some ["fatal error", "authentication failed"] }) = false := by
  decide

example : shouldRetry "NETWORK ERROR OCCURRED"
    (some { maxAttempts := 3, backoffMs := 1000,
            retryOn := some ["network error"] }) = true := by
  decide

/-- C6: characterization of shouldRetry exactly as the claim states it. -/
theorem shouldRetry_spec (e : String) (c : RetryConfig) :
    shouldRetry e none = false ∧
    ((∃ p ∈ c.skipOn.getD [], lowerL p <:+: lowerL e) →
      shouldRetry e (some c) = false) ∧
    ((¬ ∃ p ∈ c.skipOn.getD [], lowerL p <:+: lowerL e) →
      c.retryOn.getD [] = [] →
      shouldRetry e (some c) = true) ∧
    ((¬ ∃ p ∈ c.skipOn.getD [], lowerL p <:+: lowerL e) →
      c.retryOn.getD [] ≠ [] →
      (shouldRetry e (some c) = true ↔
        ∃ p ∈ c.retryOn.getD [], lowerL p <:+: lowerL e)) := by
  refine ⟨rfl, ?_, ?_, ?_⟩
  · intro ⟨p, hp, hinf⟩
    simp only [shouldRetry]
    rw [if_pos]
    exact List.any_eq_true.mpr ⟨p, hp, by simpa [matchesCI] using hinf⟩
  · intro hno hempty
    simp only [shouldRetry]
    rw [if_neg, if_pos]
    · simpa [List.isEmpty_iff] using hempty
    · intro hany
      obtain ⟨p, hp, hm⟩ := List.any_eq_true.mp hany
      exact hno ⟨p, hp, by simpa [matchesCI] using hm⟩
  · intro hno hne
    simp only [shouldRetry]
    rw [if_neg, if_neg]
    · constructor
      · intro hany
        obtain ⟨p, hp, hm⟩ := List.any_eq_true.mp hany
        exact ⟨p, hp, by simpa [matchesCI] using hm⟩
      · intro ⟨p, hp, hm⟩
        exact List.any_eq_true.mpr ⟨p, hp, by simpa [matchesCI] using hm⟩
    · simpa [List.isEmpty_iff] using hne
    · intro hany
      obtain ⟨p, hp, hm⟩ := List.any_eq_true.mp hany
      exact hno ⟨p, hp, by simpa [matchesCI] using hm⟩

/-- Witness for shouldRetry_spec at a concrete error and configuration:
skipOn suppresses the retry even though retryOn matches. -/
theorem shouldRetry_spec_witness :
    shouldRetry "fatal error occurred"
      (some { maxAttempts := 3, backoffMs := 1000,
              retryOn := some ["error"], skipOn := some ["fatal error"] }) = false :=
  (shouldRetry_spec "fatal error occurred"
    { maxAttempts := 3, backoffMs := 1000,
      retryOn := some ["error"], skipOn := some ["fatal error"] }).2.1
    ⟨"fatal error", by decide, by decide⟩

/- ===================================================================
   Output truncation, from src/executor.ts lines 294-319 and the
   constants MAX_OUTPUT_BYTES / MAX_OUTPUT_LINES of src/types.ts
   (values pinned by tests/dag.test.ts).
   =================================================================== -/

/-- 50 KiB byte limit on task output (MAX_OUTPUT_BYTES of src/types.ts). -/
def MAX_OUTPUT_BYTES : Nat := 50 * 1024

/-- 2000 line limit on task output (MAX_OUTPUT_LINES of src/types.ts). -/
def MAX_OUTPUT_LINES : Nat := 2000

/-- Embedding of the JS `output.split("\n")` on a list of characters:
always returns at least one chunk, chunks carry no newline. -/
def splitOnNl : List Char → List (List Char)
  | [] => [[]]
  | c :: rest =>
    if c = '\n' then [] :: splitOnNl rest
    else (c :: (splitOnNl rest).headI) :: (splitOnNl rest).tail

/-- Embedding of `lines.join("\n")`. -/
def joinNl : List (List Char) → List Char
  | [] => []
  | [l] => l
  | l :: l2 :: ls => l ++ '\n' :: joinNl (l2 :: ls)

/-- The byte-truncation loop of truncateOutput (src/executor.ts lines
311-316): while the UTF-8 byte length exceeds maxBytes and the string is
non-empty, replace the string by its second half.  Each productive
iteration strictly shrinks a string of length at least two, so fuel equal
to the length bounds the iteration count whenever the JS loop terminates;
with maxBytes at least 4 the loop always terminates since a single scalar
occupies at most 4 bytes. -/
def byteLoop (maxBytes : Nat) : Nat → List Char → Bool → List Char × Bool
  | 0, s, t => (s, t)
  | f + 1, s, t =>
    if String.utf8Len s > maxBytes ∧ s.length > 0 then
      byteLoop maxBytes f (s.drop (s.length / 2)) true
    else (s, t)

/-- Embedding of truncateOutput (src/executor.ts lines 294-319): drop
leading lines beyond maxLines, rejoin, then halve while over maxBytes. -/
def truncateOutput (output : List Char) (maxBytes maxLines : Nat) :
    List Char × Bool :=
  let lines := splitOnNl output
  let kept := if lines.length > maxLines then lines.drop (lines.length - maxLines) else lines
  let result := joinNl kept
  byteLoop maxBytes (result.length + 1) result (decide (lines.length > maxLines))

example : (truncateOutput "a\nb\nc".toList MAX_OUTPUT_BYTES 2).1 = "b\nc".toList := by decide
example : (truncateOutput "a\nb\nc".toList MAX_OUTPUT_BYTES 2).2 = true := by decide
example : (truncateOutput "hello".toList MAX_OUTPUT_BYTES MAX_OUTPUT_LINES).2 = false := by decide
example : (truncateOutput "abcdefgh".toList 4 10).1
    = "efgh".toList := by decide


theorem splitOnNl_ne_nil (s : List Char) : splitOnNl s ≠ [] := by
  induction s with
  | nil => simp [splitOnNl]
  | cons c rest ih =>
    by_cases hc : c = '\n' <;> simp [splitOnNl, hc]

theorem splitOnNl_length (s : List Char) :
    (splitOnNl s).length = List.count '\n' s + 1 := by
  induction s with
  | nil => simp [splitOnNl]
  | cons c rest ih =>
    by_cases hc : c = '\n'
    · subst hc
      simp [splitOnNl, List.count_cons, ih]
    · cases h : splitOnNl rest with
      | nil => exact absurd h (splitOnNl_ne_nil rest)
      | cons l ls =>
        rw [h] at ih
        simp only [splitOnNl, if_neg hc, h, List.count_cons]
        simp only [List.length_cons] at ih ⊢
        simp [hc]
        omega

theorem splitOnNl_no_nl (s : List Char) : ∀ l ∈ splitOnNl s, '\n' ∉ l := by
  induction s with
  | nil => simp [splitOnNl]
  | cons c rest ih =>
    by_cases hc : c = '\n'
    · subst hc
      simp only [splitOnNl, if_pos rfl]
      intro l hl
      rcases List.mem_cons.mp hl with h1 | h1
      · simp [h1]
      · exact ih l h1
    · cases h : splitOnNl rest with
      | nil => exact absurd h (splitOnNl_ne_nil rest)
      | cons l ls =>
        rw [h] at ih
        simp only [splitOnNl, if_neg hc, h, List.headI, List.tail]
        intro l' hl'
        rcases List.mem_cons.mp hl' with h1 | h1
        · subst h1
          intro hmem
          rcases List.mem_cons.mp hmem with h2 | h2
          · exact hc h2.symm
          · exact ih l (by simp) h2
        · exact ih l' (List.mem_cons_of_mem l h1)

theorem joinNl_splitOnNl (s : List Char) : joinNl (splitOnNl s) = s := by
  induction s with
  | nil => simp [splitOnNl, joinNl]
  | cons c rest ih =>
    by_cases hc : c = '\n'
    · subst hc
      cases h : splitOnNl rest with
      | nil => exact absurd h (splitOnNl_ne_nil rest)
      | cons l ls =>
        rw [h] at ih
        simp only [splitOnNl, if_pos rfl, h, joinNl]
        simpa using ih
    · cases h : splitOnNl rest with
      | nil => exact absurd h (splitOnNl_ne_nil rest)
      | cons l ls =>
        rw [h] at ih
        simp only [splitOnNl, if_neg hc, h, List.headI, List.tail]
        cases ls with
        | nil => simpa [joinNl] using congrArg (c :: ·) ih
        | cons l2 ls' =>
          simp only [joinNl] at ih ⊢
          simpa using congrArg (c :: ·) ih

theorem count_joinNl : ∀ ls : List (List Char), ls ≠ [] →
    (∀ l ∈ ls, '\n' ∉ l) → List.count '\n' (joinNl ls) = ls.length - 1 := by
  intro ls
  induction ls with
  | nil => intro h; exact absurd rfl h
  | cons l ls ih =>
    intro _ hno
    cases ls with
    | nil =>
      simp only [joinNl, List.length_cons]
      simpa using List.count_eq_zero.mpr (hno l (by simp))
    | cons l2 ls' =>
      simp only [joinNl, List.count_append, List.count_cons, List.length_cons]
      have h2 := ih (by simp) (fun x hx => hno x (List.mem_cons_of_mem l hx))
      have h0 : List.count '\n' l = 0 := List.count_eq_zero.mpr (hno l (by simp))
      simp only [joinNl] at h2
      simp only [List.length_cons] at h2
      simp [h0, h2]

theorem byteLoop_suffix (mb : Nat) : ∀ (f : Nat) (s : List Char) (t : Bool),
    (byteLoop mb f s t).1 <:+ s := by
  intro f
  induction f with
  | zero => intro s t; exact List.suffix_refl s
  | succ f ih =>
    intro s t
    simp only [byteLoop]
    split
    · exact (ih _ true).trans (List.drop_suffix _ s)
    · exact List.suffix_refl s

theorem byteLoop_flag_mono (mb : Nat) : ∀ (f : Nat) (s : List Char),
    (byteLoop mb f s true).2 = true := by
  intro f
  induction f with
  | zero => intro s; rfl
  | succ f ih =>
    intro s
    simp only [byteLoop]
    split
    · exact ih _
    · rfl

theorem byteLoop_bytes_le (mb : Nat) (h4 : 4 ≤ mb) :
    ∀ (f : Nat) (s : List Char) (t : Bool), s.length ≤ f →
    String.utf8Len (byteLoop mb f s t).1 ≤ mb := by
  intro f
  induction f with
  | zero =>
    intro s t hf
    have hs : s = [] := List.length_eq_zero.mp (Nat.le_zero.mp hf)
    subst hs
    simp [byteLoop]
  | succ f ih =>
    intro s t hf
    simp only [byteLoop]
    split
    · next h =>
      rcases Nat.lt_or_ge s.length 2 with h2 | h2
      · have h1 : s.length = 1 := by omega
        obtain ⟨c, rfl⟩ := List.length_eq_one.mp h1
        have hc4 : String.utf8Len [c] ≤ mb := by
          have := Char.utf8Size_le_four c
          simp only [String.utf8Len_cons, String.utf8Len_nil]
          omega
        omega
      · apply ih
        have hdrop : (s.drop (s.length / 2)).length = s.length - s.length / 2 :=
          List.length_drop _ _
        omega
    · next h =>
      by_cases hb : String.utf8Len s ≤ mb
      · exact hb
      · exfalso
        rcases Nat.eq_zero_or_pos s.length with h0 | h0
        · have hs : s = [] := List.length_eq_zero.mp h0
          subst hs
          simp at hb
        · exact h ⟨by omega, h0⟩

theorem truncate_nl_count (s : List Char) (mb ml : Nat) (hml : 1 ≤ ml) :
    List.count '\n' (truncateOutput s mb ml).1 + 1 ≤ ml := by
  simp only [truncateOutput]
  set lines := splitOnNl s with hlines
  set kept := if lines.length > ml then lines.drop (lines.length - ml) else lines with hkept
  have hkne : kept ≠ [] := by
    rw [hkept]
    split
    · next hgt =>
      intro hnil
      have := congrArg List.length hnil
      simp [List.length_drop] at this
      omega
    · exact splitOnNl_ne_nil s
  have hklen : kept.length ≤ ml := by
    rw [hkept]
    split
    · next hgt => simp [List.length_drop]; omega
    · next hgt => omega
  have hkno : ∀ l ∈ kept, '\n' ∉ l := by
    intro l hl
    apply splitOnNl_no_nl s l
    rw [hkept] at hl
    revert hl
    split
    · exact fun hl => (List.drop_sublist _ _).mem hl
    · exact id
  have hcount : List.count '\n' (joinNl kept) = kept.length - 1 :=
    count_joinNl kept hkne hkno
  have hsuff := byteLoop_suffix mb ((joinNl kept).length + 1) (joinNl kept)
    (decide (lines.length > ml))
  have hle := hsuff.sublist.count_le '\n'
  have hkpos : 1 ≤ kept.length := List.length_pos.mpr hkne
  omega

theorem truncate_bytes (s : List Char) (mb ml : Nat) (h4 : 4 ≤ mb) :
    String.utf8Len (truncateOutput s mb ml).1 ≤ mb := by
  simp only [truncateOutput]
  exact byteLoop_bytes_le mb h4 _ _ _ (Nat.le_succ _)

theorem truncateOutput_stable (s : List Char) (mb ml : Nat) (h4 : 4 ≤ mb)
    (hml : 1 ≤ ml) :
    truncateOutput (truncateOutput s mb ml).1 mb ml = ((truncateOutput s mb ml).1, false) := by
  have hcount := truncate_nl_count s mb ml hml
  have hbytes := truncate_bytes s mb ml h4
  set o := (truncateOutput s mb ml).1 with ho
  have hlen : ¬ (splitOnNl o).length > ml := by
    rw [splitOnNl_length]
    omega
  show truncateOutput o mb ml = (o, false)
  simp only [truncateOutput]
  rw [if_neg hlen, joinNl_splitOnNl]
  have hdec : decide ((splitOnNl o).length > ml) = false := by
    simpa using hlen
  rw [hdec]
  simp only [byteLoop]
  rw [if_neg]
  intro hcon
  omega

/-- C8: output truncation at the default limits is idempotent — applying
truncateOutput to its own returned output yields that same output again —
and the truncated flag is monotone once set: the byte-truncation phase
never clears a flag already set. -/
theorem truncateOutput_idem (s : List Char) :
    (truncateOutput (truncateOutput s MAX_OUTPUT_BYTES MAX_OUTPUT_LINES).1
        MAX_OUTPUT_BYTES MAX_OUTPUT_LINES).1
      = (truncateOutput s MAX_OUTPUT_BYTES MAX_OUTPUT_LINES).1 ∧
    ∀ (mb f : Nat) (t : List Char), (byteLoop mb f t true).2 = true := by
  constructor
  · rw [truncateOutput_stable s MAX_OUTPUT_BYTES MAX_OUTPUT_LINES
      (by norm_num [MAX_OUTPUT_BYTES]) (by norm_num [MAX_OUTPUT_LINES])]
  · intro mb f t
    exact byteLoop_flag_mono mb f t

/- ===================================================================
   Concurrency primitives, from the parallel module embedded at
   src/tests/dag.test.ts lines 132-280 (mapWithConcurrencyLimit and
   raceWithAbort).  Scheduler nondeterminism is abstracted explicitly:
   the shared counter nextIndex hands indices to workers in increasing
   order, so the set of indices ever claimed is a prefix of the input;
   a MapSchedule records whether the external signal was aborted before
   the call, whether it fired during the run, and how many indices had
   been claimed when the workers observed the abort.
   =================================================================== -/

/-- A JS number as it matters for the concurrency normalization:
finite rational or one of the non-finite values. -/
inductive JSNum where
  | nan
  | posInf
  | negInf
  | num (q : ℚ)
deriving Repr, DecidableEq

/-- The worker-pool size computed by mapWithConcurrencyLimit
(dag.test.ts lines 162-167): floor finite values, replace non-finite or
non-positive *floored* values by items.length, then clamp to
[1, items.length]. -/
def computeLimit (n : Nat) (concurrency : JSNum) : Int :=
  let normalized : Int :=
    match concurrency with
    | .num q => ⌊q⌋
    | _ => (n : Int)
  let effective : Int := if normalized > 0 then normalized else (n : Int)
  max 1 (min effective (n : Int))

/-- The worker limit as claim C3 words it: normalized is items.length
for non-finite or non-positive concurrency and floor(concurrency)
otherwise, and the limit is max(1, min(normalized, items.length)). -/
def claimLimitC3 (n : Nat) (concurrency : JSNum) : Int :=
  let normalized : Int :=
    match concurrency with
    | .num q => if q ≤ 0 then (n : Int) else ⌊q⌋
    | _ => (n : Int)
  max 1 (min normalized (n : Int))

/-- Result record of the bounded map (ParallelResult of the parallel
module); unset entries are none. -/
structure ParallelResult (R : Type) where
  results : List (Option R)
  aborted : Bool
deriving Repr, DecidableEq

/-- Abstraction of the scheduler and of the external AbortSignal for one
mapWithConcurrencyLimit call: preAborted means the signal was already
aborted when the call started (every worker then returns before claiming
anything); firedDuring means it aborted while the run was in flight;
claims is the number of indices handed out before the workers observed
that abort. -/
structure MapSchedule where
  preAborted : Bool
  firedDuring : Bool
  claims : Nat
deriving Repr, DecidableEq

/-- Whether `signal?.aborted` is true by the time the call returns. -/
def MapSchedule.externalAborted (s : MapSchedule) : Bool :=
  s.preAborted || s.firedDuring

/-- Number of indices claimed by workers: all of them without an abort, a
prefix bounded by the schedule when the signal fires mid-run, none when
the signal was aborted before the call. -/
def MapSchedule.claimedCount (s : MapSchedule) (n : Nat) : Nat :=
  if s.preAborted then 0 else if s.firedDuring then min s.claims n else n

/-- Sequential embedding of the worker pool body: indices are claimed in
increasing order (the shared nextIndex counter), each claimed index i
stores fn(items[i], i) at position i, and the first rejection stops all
further claims (the internal abortController).  Returns the results
array (always of the input length) and the first error if any. -/
def fillClaims {T R E : Type} (fn : T → Nat → Except E R) :
    List T → Nat → Nat → List (Option R) × Option E
  | [], _, _ => ([], none)
  | _ :: xs, _, 0 => (List.replicate (xs.length + 1) none, none)
  | x :: xs, idx, k + 1 =>
    match fn x idx with
    | .error e => (none :: List.replicate xs.length none, some e)
    | .ok v =>
      let r := fillClaims fn xs (idx + 1) k
      (some v :: r.1, r.2)

/-- Embedding of mapWithConcurrencyLimit (dag.test.ts lines 152-219)
under a MapSchedule.  An uncaught first error propagates (Except.error)
unless the external signal aborted, in which case partial results are
returned with aborted set. -/
def mapWithConcurrencyLimit {T R E : Type} (items : List T) (concurrency : JSNum)
    (fn : T → Nat → Except E R) (sched : MapSchedule) :
    Except E (ParallelResult R) :=
  if items.length = 0 then .ok ⟨[], false⟩
  else
    let claimed := sched.claimedCount items.length
    let filled := fillClaims fn items 0 claimed
    match filled.2 with
    | some e => if sched.externalAborted then .ok ⟨filled.1, true⟩ else .error e
    | none =>
      let _ := computeLimit items.length concurrency
      .ok ⟨filled.1, sched.externalAborted⟩

example :
    mapWithConcurrencyLimit ([] : List Nat) (.num 4)
      (fun x _ => (Except.ok (x * 2) : Except String Nat)) ⟨false, false, 0⟩ =
    .ok ⟨[], false⟩ := rfl

example :
    mapWithConcurrencyLimit [1, 2, 3] (.num 4)
      (fun x _ => (Except.ok (x * 2) : Except String Nat)) ⟨false, false, 0⟩ =
    .ok ⟨[some 2, some 4, some 6], false⟩ := rfl

example :
    mapWithConcurrencyLimit [1, 2, 3] (.num 4)
      (fun x _ => (Except.ok (x * 2) : Except String Nat)) ⟨true, false, 0⟩ =
    .ok ⟨[none, none, none], true⟩ := rfl

/-- Outcome of a raceWithAbort call: a raised error (the embedding of a
thrown exception), the reported aborted outcome, or a winner. -/
inductive RaceOutcome (T : Type) where
  | raised (msg : String)
  | aborted
  | winner (id : String) (result : T)
deriving Repr, DecidableEq

/-- Embedding of raceWithAbort (dag.test.ts lines 225-280).  Each task is
given by its id and the outcome of its run promise (an Except; a run
cancelled mid-flight typically surfaces as an error outcome).  The
parentFiredDuring flag records whether the parent signal aborted while
tasks were in flight: the source reads the parent signal only once,
before starting the tasks, so the definition takes the flag but its
result does not depend on it.  Completion order among multiple
successful tasks is scheduler-dependent and is abstracted by pick. -/
def raceWithAbort {T : Type} (tasks : List (String × Except String T))
    (parentPreAborted : Bool) (parentFiredDuring : Bool) (pick : Nat) :
    RaceOutcome T :=
  let _ := parentFiredDuring
  if tasks.length = 0 then .raised "No tasks to race"
  else if parentPreAborted then .aborted
  else
    let successes := tasks.filterMap
      (fun t => match t.2 with | .ok v => some (t.1, v) | .error _ => none)
    match successes with
    | [] => .raised "All race tasks failed"
    | s :: ss =>
      let w := (s :: ss).get ⟨pick % (s :: ss).length, Nat.mod_lt _ (Nat.succ_pos _)⟩
      .winner w.1 w.2

example :
    raceWithAbort [("task1", (Except.ok "result1" : Except String String)),
      ("task2", .error "fail")] false false 0 = .winner "task1" "result1" := rfl

example :
    raceWithAbort ([] : List (String × Except String Nat)) false false 0
      = .raised "No tasks to race" := rfl

example :
    raceWithAbort [("task1", (Except.ok "r" : Except String String))] true false 0
      = .aborted := rfl

/-- The worker limit as the amended claim words it: normalized is
items.length when concurrency is non-finite or its floor is non-positive,
and floor(concurrency) otherwise. -/
def amendedLimitC3 (n : Nat) (concurrency : JSNum) : Int :=
  let normalized : Int :=
    match concurrency with
    | .num q => if ⌊q⌋ ≤ 0 then (n : Int) else ⌊q⌋
    | _ => (n : Int)
  max 1 (min normalized (n : Int))

theorem fillClaims_length {T R E : Type} (fn : T → Nat → Except E R) :
    ∀ (xs : List T) (idx k : Nat), (fillClaims fn xs idx k).1.length = xs.length := by
  intro xs
  induction xs with
  | nil => intro idx k; rfl
  | cons x xs ih =>
    intro idx k
    cases k with
    | zero => simp [fillClaims]
    | succ k =>
      simp only [fillClaims]
      cases fn x idx with
      | error e => simp
      | ok v => simp [ih]

theorem fillClaims_zero {T R E : Type} (fn : T → Nat → Except E R) :
    ∀ (xs : List T) (idx : Nat),
    fillClaims fn xs idx 0 = (List.replicate xs.length none, none) := by
  intro xs idx
  cases xs with
  | nil => rfl
  | cons x xs => simp [fillClaims]

theorem fillClaims_ok_err {T R E : Type} (g : T → Nat → R) :
    ∀ (xs : List T) (idx k : Nat),
    (fillClaims (fun x i => (Except.ok (g x i) : Except E R)) xs idx k).2 = none := by
  intro xs
  induction xs with
  | nil => intro idx k; rfl
  | cons x xs ih =>
    intro idx k
    cases k with
    | zero => simp [fillClaims]
    | succ k => simp [fillClaims, ih]

theorem fillClaims_ok_get {T R E : Type} (g : T → Nat → R) :
    ∀ (xs : List T) (idx k i : Nat) (hi : i < xs.length), i < k →
    (fillClaims (fun x j => (Except.ok (g x j) : Except E R)) xs idx k).1[i]?
      = some (some (g (xs.get ⟨i, hi⟩) (idx + i))) := by
  intro xs
  induction xs with
  | nil => intro idx k i hi; simp at hi
  | cons x xs ih =>
    intro idx k i hi hik
    cases k with
    | zero => omega
    | succ k =>
      simp only [fillClaims]
      cases i with
      | zero => simp
      | succ i =>
        have := ih (idx + 1) k i (by simpa using Nat.lt_of_succ_lt_succ hi)
          (Nat.lt_of_succ_lt_succ hik)
        simp only [List.getElem?_cons_succ]
        rw [this]
        have harith : idx + 1 + i = idx + (i + 1) := by omega
        simp [List.get_cons_succ, harith]

theorem fillClaims_ok_unset {T R E : Type} (g : T → Nat → R) :
    ∀ (xs : List T) (idx k i : Nat), i < xs.length → k ≤ i →
    (fillClaims (fun x j => (Except.ok (g x j) : Except E R)) xs idx k).1[i]?
      = some none := by
  intro xs
  induction xs with
  | nil => intro idx k i hi; simp at hi
  | cons x xs ih =>
    intro idx k i hi hk
    cases k with
    | zero =>
      rw [fillClaims_zero]
      simp only [List.getElem?_replicate]
      rw [if_pos hi]
    | succ k =>
      simp only [fillClaims]
      cases i with
      | zero => omega
      | succ i =>
        simp only [List.getElem?_cons_succ]
        exact ih (idx + 1) k i (by simpa using Nat.lt_of_succ_lt_succ hi)
          (Nat.le_of_succ_le_succ hk)

/-- C3 counterexample: for two items and concurrency one half — finite
and positive, so the claim prescribes normalized = floor(1/2) = 0 and a
worker limit of max(1, min(0, 2)) = 1 — the code floors first and only
then replaces the non-positive result by items.length, giving limit 2. -/
theorem computeLimit_claim_counterexample :
    computeLimit 2 (.num (1 / 2)) = 2 ∧ claimLimitC3 2 (.num (1 / 2)) = 1 ∧
    computeLimit 2 (.num (1 / 2)) ≠ claimLimitC3 2 (.num (1 / 2)) := by
  refine ⟨?_, ?_, ?_⟩ <;> norm_num [computeLimit, claimLimitC3]

/-- C3 amended: mapWithConcurrencyLimit on empty items returns empty
results with aborted false; otherwise the results array has the input
length, every claimed index holds the fn value at its original position,
entries never started remain unset, and the worker limit is
max(1, min(normalized, items.length)) where normalized is items.length
when concurrency is non-finite or its floor is non-positive, and
floor(concurrency) otherwise. -/
theorem mapWithConcurrencyLimit_spec {T R : Type} (items : List T) (c : JSNum)
    (g : T → Nat → R) (sched : MapSchedule) :
    (items = [] →
      mapWithConcurrencyLimit items c
        (fun x i => (Except.ok (g x i) : Except Unit R)) sched = .ok ⟨[], false⟩) ∧
    (∃ r, mapWithConcurrencyLimit items c
        (fun x i => (Except.ok (g x i) : Except Unit R)) sched = .ok r ∧
      r.results.length = items.length ∧
      (∀ (i : Nat) (hi : i < items.length), i < sched.claimedCount items.length →
        r.results[i]? = some (some (g (items.get ⟨i, hi⟩) i))) ∧
      (∀ i : Nat, i < items.length → sched.claimedCount items.length ≤ i →
        r.results[i]? = some none)) ∧
    computeLimit items.length c = amendedLimitC3 items.length c := by
  refine ⟨?_, ?_, ?_⟩
  · intro h
    subst h
    rfl
  · simp only [mapWithConcurrencyLimit]
    split
    · next h0 =>
      refine ⟨⟨[], false⟩, rfl, ?_, ?_, ?_⟩
      · simpa using h0.symm
      · intro i hi
        omega
      · intro i hi hcl
        omega
    · next h0 =>
      rw [fillClaims_ok_err]
      refine ⟨_, rfl, ?_, ?_, ?_⟩
      · exact fillClaims_length _ items 0 _
      · intro i hi hcl
        simpa using fillClaims_ok_get g items 0 _ i hi hcl
      · intro i hi hcl
        exact fillClaims_ok_unset g items 0 _ i hi hcl
  · cases c with
    | nan =>
      simp only [computeLimit, amendedLimitC3]
      split <;> rfl
    | posInf =>
      simp only [computeLimit, amendedLimitC3]
      split <;> rfl
    | negInf =>
      simp only [computeLimit, amendedLimitC3]
      split <;> rfl
    | num q =>
      simp only [computeLimit, amendedLimitC3]
      by_cases hq : ⌊q⌋ ≤ 0
      · rw [if_pos hq, if_neg (by omega)]
      · rw [if_neg hq, if_pos (by omega)]

/-- Witness for mapWithConcurrencyLimit_spec: the empty case and a
claimed index of a concrete two-element run. -/
theorem mapWithConcurrencyLimit_spec_witness :
    mapWithConcurrencyLimit ([] : List Nat) (.num 4)
      (fun x i => (Except.ok (x + i) : Except Unit Nat)) ⟨false, false, 0⟩
      = .ok ⟨[], false⟩ ∧
    ∃ r, mapWithConcurrencyLimit [10, 5] (.num 4)
      (fun x _ => (Except.ok (x * 2) : Except Unit Nat)) ⟨false, false, 0⟩ = .ok r ∧
      r.results[0]? = some (some 20) := by
  constructor
  · exact (mapWithConcurrencyLimit_spec [] (.num 4) (fun x i => x + i)
      ⟨false, false, 0⟩).1 rfl
  · obtain ⟨r, h1, _, h3, _⟩ := (mapWithConcurrencyLimit_spec [10, 5] (.num 4)
      (fun x _ => x * 2) ⟨false, false, 0⟩).2.1
    exact ⟨r, h1, by simpa using h3 0 (by norm_num) (by norm_num [MapSchedule.claimedCount])⟩

/-- C10: if the external abort signal is already aborted when
mapWithConcurrencyLimit is called on non-empty items, every worker
returns before claiming an index, so fn is never consulted (the result
is the same for any fn), every entry of the results array is unset, and
the call returns the partial result with aborted true instead of
raising. -/
theorem mapWithConcurrencyLimit_preAborted {T R E : Type} (items : List T)
    (c : JSNum) (fn gn : T → Nat → Except E R) (sched : MapSchedule)
    (hne : items ≠ []) (hpre : sched.preAborted = true) :
    mapWithConcurrencyLimit items c fn sched
      = .ok ⟨List.replicate items.length none, true⟩ ∧
    mapWithConcurrencyLimit items c fn sched
      = mapWithConcurrencyLimit items c gn sched := by
  have hcl : sched.claimedCount items.length = 0 := by
    simp [MapSchedule.claimedCount, hpre]
  have hab : sched.externalAborted = true := by
    simp [MapSchedule.externalAborted, hpre]
  have hlen : ¬ items.length = 0 := by
    simpa using fun h => hne (List.length_eq_zero.mp h)
  have main : ∀ hn : T → Nat → Except E R,
      mapWithConcurrencyLimit items c hn sched
        = .ok ⟨List.replicate items.length none, true⟩ := by
    intro hn
    simp only [mapWithConcurrencyLimit]
    rw [if_neg hlen, hcl, fillClaims_zero]
    simp [hab]
  exact ⟨main fn, (main fn).trans (main gn).symm⟩

/-- Witness for mapWithConcurrencyLimit_preAborted at a concrete
already-aborted call. -/
theorem mapWithConcurrencyLimit_preAborted_witness :
    mapWithConcurrencyLimit [1, 2, 3] (.num 4)
      (fun x i => (Except.ok (x * 2 + i) : Except String Nat)) ⟨true, false, 0⟩
      = .ok ⟨[none, none, none], true⟩ :=
  (mapWithConcurrencyLimit_preAborted [1, 2, 3] (.num 4)
    (fun x i => (Except.ok (x * 2 + i) : Except String Nat))
    (fun _ _ => Except.error "ignored") ⟨true, false, 0⟩
    (by simp) rfl).1

/-- C4 counterexample: the parent cancel token fires while the single
task is in flight (parentPreAborted false, parentFiredDuring true) and
the task consequently errors; the call raises the all-failed error
instead of returning the aborted outcome the claim prescribes. -/
theorem raceWithAbort_midflight_counterexample :
    raceWithAbort [("t1", (Except.error "Aborted" : Except String Nat))] false true 0
      = .raised "All race tasks failed" ∧
    RaceOutcome.raised "All race tasks failed" ≠ (RaceOutcome.aborted : RaceOutcome Nat) := by
  exact ⟨rfl, by simp⟩

/-- C4 amended: for non-empty task lists, a parent token that has already
fired when raceWithAbort is called makes it return the aborted outcome
without raising; a parent firing only while tasks are in flight is never
re-checked, so if every task then errors the call raises the all-failed
error instead of reporting aborted. -/
theorem raceWithAbort_abort_spec {T : Type} (tasks : List (String × Except String T))
    (during : Bool) (pick : Nat) (hne : tasks ≠ []) :
    raceWithAbort tasks true during pick = .aborted ∧
    ((∀ t ∈ tasks, ∃ e, t.2 = Except.error e) →
      raceWithAbort tasks false during pick = .raised "All race tasks failed") := by
  have hlen : ¬ tasks.length = 0 := by
    simpa using fun h => hne (List.length_eq_zero.mp h)
  constructor
  · simp only [raceWithAbort]
    rw [if_neg hlen]
    rfl
  · intro hall
    simp only [raceWithAbort]
    rw [if_neg hlen]
    have hfm : tasks.filterMap
        (fun t => match t.2 with | .ok v => some (t.1, v) | .error _ => none) = [] := by
      rw [List.filterMap_eq_nil_iff]
      intro t ht
      obtain ⟨e, he⟩ := hall t ht
      simp [he]
    simp [hfm]

/-- Witness for raceWithAbort_abort_spec at a concrete single-task list:
pre-aborted parent reports aborted, mid-flight abort with a failing task
raises. -/
theorem raceWithAbort_abort_spec_witness :
    raceWithAbort [("a", (Except.error "x" : Except String Nat))] true false 0
      = .aborted ∧
    raceWithAbort [("a", (Except.error "x" : Except String Nat))] false true 0
      = .raised "All race tasks failed" :=
  ⟨(raceWithAbort_abort_spec [("a", Except.error "x")] false 0 (by simp)).1,
   (raceWithAbort_abort_spec [("a", Except.error "x")] true 0 (by simp)).2
     (by intro t ht; simp at ht; exact ⟨"x", by simp [ht]⟩)⟩

/-- C5: when every task errors (parent never fired), the code raises the
constant message "All race tasks failed", which contains neither the task
ids nor their error strings, nor the aggregate prefix
"All race models failed:" that the repository's own retry test expects;
each individual error is swallowed by the per-task catch. -/
theorem raceWithAbort_allFail_constant :
    raceWithAbort [("fail1", (Except.error "fail 1" : Except String Nat)),
        ("fail2", Except.error "fail 2")] false false 0
      = .raised "All race tasks failed" ∧
    ¬ ("fail1".toList <:+: "All race tasks failed".toList) ∧
    ¬ ("fail2".toList <:+: "All race tasks failed".toList) ∧
    ¬ ("fail 1".toList <:+: "All race tasks failed".toList) ∧
    ¬ ("fail 2".toList <:+: "All race tasks failed".toList) ∧
    ¬ ("All race models failed:".toList <:+: "All race tasks failed".toList) := by
  refine ⟨rfl, ?_, ?_, ?_, ?_, ?_⟩ <;> decide

/- ===================================================================
   Agent inheritance resolution, from src/agents.ts lines 123-200.
   =================================================================== -/

/-- A thinking budget: token count or level label, as in the AgentConfig
type of src/agents.ts. -/
inductive Thinking where
  | num (n : Int)
  | label (s : String)
deriving Repr, DecidableEq

/-- JS truthiness of a thinking value: 0 and the empty string are falsy. -/
def Thinking.truthy : Thinking → Bool
  | .num n => n ≠ 0
  | .label s => s ≠ ""

/-- JS truthiness of an optional string: undefined and "" are falsy. -/
def strTruthy : Option String → Bool
  | none => false
  | some s => s ≠ ""

/-- JS truthiness of an optional thinking value. -/
def thinkTruthy : Option Thinking → Bool
  | none => false
  | some t => t.truthy

/-- The JS `a || b` on optional strings: keeps a when truthy, else b. -/
def jsOrStr (a b : Option String) : Option String :=
  if strTruthy a then a else b

/-- AgentConfig, from src/agents.ts lines 25-42, restricted to the fields
the inheritance resolver reads or writes (description, systemPrompt,
source and filePath are carried through untouched).  The source field
named extends is a Lean keyword and is embedded as extendsBase. -/
structure AgentConfig where
  name : String
  tools : Option (List String) := none
  model : Option String := none
  thinking : Option Thinking := none
  extendsBase : Option String := none
  resolvedTools : Option (List String) := none
  resolvedModel : Option String := none
  resolvedThinking : Option Thinking := none
deriving Repr, DecidableEq

/-- Deduplication keeping first occurrences in order, the embedding of
the JS spread of a Set built from the concatenated tool lists. -/
def dedupFirstAux : List String → List String → List String
  | [], _ => []
  | x :: xs, seen =>
    if x ∈ seen then dedupFirstAux xs seen else x :: dedupFirstAux xs (x :: seen)

/-- Deduplication keeping first occurrences. -/
def dedupFirst (l : List String) : List String :=
  dedupFirstAux l []

/-- The no-inheritance branch of resolve (src/agents.ts lines 175-186):
copy truthy tools, model and thinking into the resolved fields, leaving
each resolved field untouched otherwise. -/
def rootResolve (a : AgentConfig) : AgentConfig :=
  { a with
    resolvedTools :=
      match a.tools with
      | some l => if l.length > 0 then some l else a.resolvedTools
      | none => a.resolvedTools,
    resolvedModel := if strTruthy a.model then a.model else a.resolvedModel,
    resolvedThinking := if thinkTruthy a.thinking then a.thinking else a.resolvedThinking }

/-- The inheritance branch of resolve (src/agents.ts lines 155-174),
applied to an agent and its already-resolved base rb: combined tools are
the first-seen deduplication of base resolvedTools (or tools) followed by
the agent's own tools, stored only when non-empty; resolvedModel is the
JS or-chain agent.model || rb.resolvedModel || rb.model, assigned
unconditionally; resolvedThinking is assigned rb.resolvedThinking ?? 
rb.thinking only when the agent has no truthy thinking of its own. -/
def childResolve (a : AgentConfig) (rb : AgentConfig) : AgentConfig :=
  let baseTools :=
    match rb.resolvedTools with
    | some l => l
    | none => rb.tools.getD []
  let combined := dedupFirst (baseTools ++ a.tools.getD [])
  { a with
    resolvedTools := if combined.length > 0 then some combined else a.resolvedTools,
    resolvedModel := jsOrStr a.model (jsOrStr rb.resolvedModel rb.model),
    resolvedThinking :=
      if thinkTruthy a.thinking then a.resolvedThinking
      else
        match rb.resolvedThinking with
        | some t => some t
        | none => rb.thinking }

/-- The agentMap lookup of src/agents.ts lines 125-128: successive
Map.set calls keep the last agent carrying a given name. -/
def agentMapGet (agents : List AgentConfig) (n : String) : Option AgentConfig :=
  agents.reverse.find? (fun a => a.name = n)

/-- Resolution of one agent by walking its extends chain base-first, the
embedding of the recursive resolve of src/agents.ts lines 134-190 for
inputs without duplicate names: memoization cannot change field values
there, so each agent's final fields depend only on its chain.  The fuel
bounds the chain length; exhausted fuel or a missing base yields none,
the embedding of the thrown circular-inheritance and base-not-found
errors. -/
def resolveAgent (find : String → Option AgentConfig) :
    Nat → AgentConfig → Option AgentConfig
  | 0, a =>
    match a.extendsBase with
    | none => some (rootResolve a)
    | some _ => none
  | fuel + 1, a =>
    match a.extendsBase with
    | none => some (rootResolve a)
    | some bn =>
      match find bn with
      | none => none
      | some b => (resolveAgent find fuel b).map (childResolve a)

/-- Resolution of a list of agents, element by element. -/
def resolveAll (find : String → Option AgentConfig) (fuel : Nat) :
    List AgentConfig → Option (List AgentConfig)
  | [] => some []
  | a :: as =>
    match resolveAgent find fuel a, resolveAll find fuel as with
    | some r, some rs => some (r :: rs)
    | _, _ => none

/-- Embedding of resolveAgentInheritance (src/agents.ts lines 123-200):
every agent is resolved against the name map, with fuel sufficient for
any acyclic chain of distinct names. -/
def resolveAgentInheritance (agents : List AgentConfig) :
    Option (List AgentConfig) :=
  resolveAll (agentMapGet agents) agents.length agents

example :
    resolveAgentInheritance
      [{ name := "base", tools := some ["read", "grep"], model := some "m0" },
       { name := "child", tools := some ["bash", "read"],
         extendsBase := some "base" }]
      = some
      [{ name := "base", tools := some ["read", "grep"], model := some "m0",
         resolvedTools := some ["read", "grep"], resolvedModel := some "m0" },
       { name := "child", tools := some ["bash", "read"],
         extendsBase := some "base",
         resolvedTools := some ["read", "grep", "bash"],
         resolvedModel := some "m0" }] := by
  rfl

example :
    resolveAgentInheritance
      [{ name := "a", extendsBase := some "b" },
       { name := "b", extendsBase := some "a" }] = none := by
  rfl

/-- Base agent of the C7 counterexample: carries only a thinking level. -/
def thinkBase : AgentConfig :=
  { name := "base", thinking := some (.label "low") }

/-- Child agent of the C7 counterexample: inherits from base and carries
its own thinking level. -/
def thinkChild : AgentConfig :=
  { name := "child", extendsBase := some "base", thinking := some (.label "high") }

/-- C7 counterexample: resolving a child that extends a base while
carrying its own thinking leaves the child's resolvedThinking unset
(the source assigns it only when the child has no truthy thinking),
whereas the claim prescribes the agent's own thinking, here high; the
empty tool union likewise leaves resolvedTools unset rather than set. -/
theorem resolveInheritance_C7_counterexample :
    (resolveAgentInheritance [thinkBase, thinkChild]).map
        (fun out => out.map (fun a => (a.resolvedThinking, a.resolvedTools)))
      = some [(some (Thinking.label "low"), none), (none, none)] ∧
    (none : Option Thinking) ≠ some (Thinking.label "high") := by
  exact ⟨rfl, by simp⟩

theorem resolveAll_length (find : String → Option AgentConfig) (fuel : Nat) :
    ∀ (as : List AgentConfig) (out : List AgentConfig),
    resolveAll find fuel as = some out → out.length = as.length := by
  intro as
  induction as with
  | nil =>
    intro out h
    simp only [resolveAll] at h
    cases h
    rfl
  | cons a as ih =>
    intro out h
    simp only [resolveAll] at h
    cases h1 : resolveAgent find fuel a with
    | none => rw [h1] at h; cases h
    | some r =>
      rw [h1] at h
      cases h2 : resolveAll find fuel as with
      | none => rw [h2] at h; cases h
      | some rs =>
        rw [h2] at h
        cases h
        simp [ih rs h2]

theorem resolveAll_get (find : String → Option AgentConfig) (fuel : Nat) :
    ∀ (as : List AgentConfig) (out : List AgentConfig),
    resolveAll find fuel as = some out →
    ∀ (i : Nat) (hi : i < as.length),
    out[i]? = resolveAgent find fuel (as.get ⟨i, hi⟩) := by
  intro as
  induction as with
  | nil =>
    intro out h i hi
    simp at hi
  | cons a as ih =>
    intro out h i hi
    simp only [resolveAll] at h
    cases h1 : resolveAgent find fuel a with
    | none => rw [h1] at h; cases h
    | some r =>
      rw [h1] at h
      cases h2 : resolveAll find fuel as with
      | none => rw [h2] at h; cases h
      | some rs =>
        rw [h2] at h
        cases h
        cases i with
        | zero => simpa using h1.symm
        | succ i =>
          simpa using ih rs h2 i (Nat.lt_of_succ_lt_succ hi)

theorem resolveAgent_mono (find : String → Option AgentConfig) :
    ∀ (f : Nat) (a r : AgentConfig), resolveAgent find f a = some r →
    ∀ f2, f ≤ f2 → resolveAgent find f2 a = some r := by
  intro f
  induction f with
  | zero =>
    intro a r h f2 _
    cases hext : a.extendsBase with
    | none =>
      simp only [resolveAgent, hext] at h
      cases f2 <;> simpa [resolveAgent, hext] using h
    | some bn => simp [resolveAgent, hext] at h
  | succ f ih =>
    intro a r h f2 hf2
    cases hext : a.extendsBase with
    | none =>
      simp only [resolveAgent, hext] at h
      cases f2 <;> simpa [resolveAgent, hext] using h
    | some bn =>
      cases hfind : find bn with
      | none => simp [resolveAgent, hext, hfind] at h
      | some b =>
        simp only [resolveAgent, hext, hfind] at h
        cases hrb : resolveAgent find f b with
        | none => rw [hrb] at h; simp at h
        | some rb =>
          rw [hrb] at h
          obtain ⟨f1, rfl⟩ : ∃ f1, f2 = f1 + 1 := ⟨f2 - 1, by omega⟩
          simp only [resolveAgent, hext, hfind]
          rw [ih b rb hrb f1 (by omega)]
          simpa using h

theorem agentMapGet_mem (agents : List AgentConfig) (bn : String)
    (b : AgentConfig) (h : agentMapGet agents bn = some b) :
    b.name = bn ∧ ∃ (j : Nat) (hj : j < agents.length), agents.get ⟨j, hj⟩ = b := by
  constructor
  · have := List.find?_some h
    simpa using this
  · have hmem : b ∈ agents := by
      have := List.mem_of_find?_eq_some h
      simpa using this
    obtain ⟨⟨j, hj⟩, hbj⟩ := List.mem_iff_get.mp hmem
    exact ⟨j, hj, hbj⟩

theorem childResolve_fields (a rb : AgentConfig) :
    (childResolve a rb).resolvedTools =
      (if (dedupFirst (rb.resolvedTools.getD (rb.tools.getD []) ++ a.tools.getD [])).length > 0
        then some (dedupFirst (rb.resolvedTools.getD (rb.tools.getD []) ++ a.tools.getD []))
        else a.resolvedTools) ∧
    (childResolve a rb).resolvedModel = jsOrStr a.model (jsOrStr rb.resolvedModel rb.model) ∧
    (childResolve a rb).resolvedThinking =
      (if thinkTruthy a.thinking then a.resolvedThinking
       else rb.resolvedThinking.or rb.thinking) := by
  refine ⟨?_, rfl, ?_⟩
  · cases h : rb.resolvedTools <;> simp [childResolve, h]
  · cases h : rb.resolvedThinking <;> simp [childResolve, h, Option.or]

theorem dedupFirstAux_mem : ∀ (l seen : List String) (y : String),
    y ∈ dedupFirstAux l seen → y ∈ l ∧ y ∉ seen := by
  intro l
  induction l with
  | nil => intro seen y h; simp [dedupFirstAux] at h
  | cons x xs ih =>
    intro seen y h
    simp only [dedupFirstAux] at h
    by_cases hx : x ∈ seen
    · rw [if_pos hx] at h
      obtain ⟨h1, h2⟩ := ih seen y h
      exact ⟨List.mem_cons_of_mem x h1, h2⟩
    · rw [if_neg hx] at h
      rcases List.mem_cons.mp h with h1 | h1
      · subst h1
        exact ⟨List.mem_cons_self _ _, hx⟩
      · obtain ⟨h1, h2⟩ := ih (x :: seen) y h1
        refine ⟨List.mem_cons_of_mem x h1, fun hc => h2 (List.mem_cons_of_mem x hc)⟩

theorem dedupFirstAux_nodup : ∀ (l seen : List String),
    (dedupFirstAux l seen).Nodup := by
  intro l
  induction l with
  | nil => intro seen; simp [dedupFirstAux]
  | cons x xs ih =>
    intro seen
    simp only [dedupFirstAux]
    by_cases hx : x ∈ seen
    · rw [if_pos hx]; exact ih seen
    · rw [if_neg hx]
      refine List.nodup_cons.mpr ⟨?_, ih (x :: seen)⟩
      intro hc
      exact (dedupFirstAux_mem xs (x :: seen) x hc).2 (List.mem_cons_self _ _)

theorem dedupFirstAux_sublist : ∀ (l seen : List String),
    List.Sublist (dedupFirstAux l seen) l := by
  intro l
  induction l with
  | nil => intro seen; simp [dedupFirstAux]
  | cons x xs ih =>
    intro seen
    simp only [dedupFirstAux]
    by_cases hx : x ∈ seen
    · rw [if_pos hx]; exact (ih seen).cons x
    · rw [if_neg hx]; exact (ih (x :: seen)).cons₂ x

theorem dedupFirstAux_mem_of : ∀ (l seen : List String) (y : String),
    y ∈ l → y ∉ seen → y ∈ dedupFirstAux l seen := by
  intro l
  induction l with
  | nil => intro seen y h; simp at h
  | cons x xs ih =>
    intro seen y hy hseen
    simp only [dedupFirstAux]
    by_cases hx : x ∈ seen
    · rw [if_pos hx]
      rcases List.mem_cons.mp hy with h1 | h1
      · exact absurd (h1 ▸ hx) hseen
      · exact ih seen y h1 hseen
    · rw [if_neg hx]
      by_cases hxy : y = x
      · subst hxy; exact List.mem_cons_self _ _
      · rcases List.mem_cons.mp hy with h1 | h1
        · exact absurd h1 hxy
        · refine List.mem_cons_of_mem x (ih (x :: seen) y h1 ?_)
          intro hc
          rcases List.mem_cons.mp hc with h2 | h2
          · exact hxy h2
          · exact hseen h2

theorem dedupFirst_spec (l : List String) :
    (dedupFirst l).Nodup ∧ List.Sublist (dedupFirst l) l ∧
    ∀ x, x ∈ dedupFirst l ↔ x ∈ l := by
  refine ⟨dedupFirstAux_nodup l [], dedupFirstAux_sublist l [], fun x => ⟨?_, ?_⟩⟩
  · intro h; exact (dedupFirstAux_mem l [] x h).1
  · intro h; exact dedupFirstAux_mem_of l [] x h (by simp)

theorem resolveAgent_extends_some (find : String → Option AgentConfig)
    (f : Nat) (a r : AgentConfig) (bn : String) (hext : a.extendsBase = some bn)
    (h : resolveAgent find f a = some r) :
    ∃ b rb, find bn = some b ∧ resolveAgent find (f - 1) b = some rb ∧
      r = childResolve a rb := by
  cases f with
  | zero => simp [resolveAgent, hext] at h
  | succ k =>
    cases hfind : find bn with
    | none => simp [resolveAgent, hext, hfind] at h
    | some b =>
      simp only [resolveAgent, hext, hfind] at h
      cases hrb : resolveAgent find k b with
      | none => rw [hrb] at h; simp at h
      | some rb =>
        rw [hrb] at h
        simp at h
        exact ⟨b, rb, rfl, by simpa using hrb, h.symm⟩

/-- C7 amended: for duplicate-free agent lists whose extends chains
resolve without cycles, each inheriting agent's resolvedTools is set to
the union of the resolved base's resolvedTools (or tools) with the
agent's own tools, deduplicated preserving first-seen order, only when
that union is non-empty (the field is left unchanged otherwise);
resolvedModel is the agent's model else the base's resolvedModel else the
base's model under JS truthiness; and resolvedThinking is the base's
resolvedThinking else the base's thinking only when the agent has no
truthy thinking of its own — an inheriting agent carrying its own
thinking keeps resolvedThinking unchanged (typically unset).  The
deduplication is sound: no duplicates, a sublist of the concatenation
(first-seen order preserved), same membership. -/
theorem resolveAgentInheritance_spec (agents : List AgentConfig)
    (out : List AgentConfig) (_hnodup : (agents.map (fun a => a.name)).Nodup)
    (hres : resolveAgentInheritance agents = some out) :
    out.length = agents.length ∧
    (∀ (i : Nat) (hi : i < agents.length) (bn : String),
      (agents.get ⟨i, hi⟩).extendsBase = some bn →
      ∃ (j : Nat) (hj : j < agents.length) (rb r : AgentConfig),
        (agents.get ⟨j, hj⟩).name = bn ∧ out[j]? = some rb ∧ out[i]? = some r ∧
        r.resolvedTools =
          (if (dedupFirst (rb.resolvedTools.getD (rb.tools.getD []) ++
              (agents.get ⟨i, hi⟩).tools.getD [])).length > 0
           then some (dedupFirst (rb.resolvedTools.getD (rb.tools.getD []) ++
              (agents.get ⟨i, hi⟩).tools.getD []))
           else (agents.get ⟨i, hi⟩).resolvedTools) ∧
        r.resolvedModel = jsOrStr (agents.get ⟨i, hi⟩).model
          (jsOrStr rb.resolvedModel rb.model) ∧
        r.resolvedThinking =
          (if thinkTruthy (agents.get ⟨i, hi⟩).thinking
           then (agents.get ⟨i, hi⟩).resolvedThinking
           else rb.resolvedThinking.or rb.thinking)) ∧
    (∀ l : List String, (dedupFirst l).Nodup ∧ List.Sublist (dedupFirst l) l ∧
      ∀ x, x ∈ dedupFirst l ↔ x ∈ l) := by
  have hlen := resolveAll_length (agentMapGet agents) agents.length agents out hres
  refine ⟨hlen, ?_, dedupFirst_spec⟩
  intro i hi bn hext
  have hget := resolveAll_get (agentMapGet agents) agents.length agents out hres i hi
  have hiw : i < out.length := by omega
  have hsome : out[i]? = some out[i] := List.getElem?_eq_getElem hiw
  have hra : resolveAgent (agentMapGet agents) agents.length (agents.get ⟨i, hi⟩)
      = some out[i] := hget.symm.trans hsome
  obtain ⟨b, rb, hfind, hrb, hcr⟩ :=
    resolveAgent_extends_some (agentMapGet agents) agents.length
      (agents.get ⟨i, hi⟩) out[i] bn hext hra
  obtain ⟨hbname, j, hj, hbj⟩ := agentMapGet_mem agents bn b hfind
  have hmono := resolveAgent_mono (agentMapGet agents) (agents.length - 1) b rb hrb
    agents.length (by omega)
  have hgetj := resolveAll_get (agentMapGet agents) agents.length agents out hres j hj
  have houtj : out[j]? = some rb := by
    rw [hgetj, hbj, hmono]
  refine ⟨j, hj, rb, out[i], by rw [hbj]; exact hbname, houtj, hsome, ?_, ?_, ?_⟩
  · rw [hcr]; exact (childResolve_fields _ rb).1
  · rw [hcr]; exact (childResolve_fields _ rb).2.1
  · rw [hcr]; exact (childResolve_fields _ rb).2.2

/-- Witness for resolveAgentInheritance_spec at a concrete two-agent
inheritance: the child inherits tools, model and thinking from the base. -/
theorem resolveAgentInheritance_spec_witness :
    (resolveAgentInheritance
        [{ name := "base", tools := some ["read"], model := some "m1",
           thinking := some (.label "low") },
         { name := "child", tools := some ["bash"], extendsBase := some "base" }]).map
        List.length = some 2 ∧
    (resolveAgentInheritance
        [{ name := "base", tools := some ["read"], model := some "m1",
           thinking := some (.label "low") },
         { name := "child", tools := some ["bash"], extendsBase := some "base" }]).map
        (fun out => out.map (fun a => (a.resolvedTools, a.resolvedModel, a.resolvedThinking)))
      = some [(some ["read"], some "m1", some (Thinking.label "low")),
              (some ["read", "bash"], some "m1", some (Thinking.label "low"))] := by
  constructor
  · obtain ⟨o, ho⟩ : ∃ o, resolveAgentInheritance
        [{ name := "base", tools := some ["read"], model := some "m1",
           thinking := some (.label "low") },
         { name := "child", tools := some ["bash"], extendsBase := some "base" }]
        = some o := ⟨_, rfl⟩
    have h := resolveAgentInheritance_spec _ o (by decide) ho
    rw [ho]
    simp [h.1]
  · rfl

/- ===================================================================
   Resource guards and their wiring in runAgentOnce, from
   src/executor.ts lines 124-236 (classes) and 522-548 (setup).
   =================================================================== -/

/-- ResourceLimits, from the type referenced by src/executor.ts. -/
structure ResourceLimits where
  maxMemoryMB : Option ℚ := none
  maxDurationMs : Option ℚ := none
  maxConcurrentToolCalls : Option Int := none
  enforceLimits : Bool := false
deriving Repr, DecidableEq

/-- JS truthiness of an optional number: undefined and 0 are falsy. -/
def qTruthy : Option ℚ → Bool
  | none => false
  | some q => q ≠ 0

/-- JS truthiness of an optional integer count. -/
def iTruthy : Option Int → Bool
  | none => false
  | some n => n ≠ 0

/-- MemoryMonitor, from src/executor.ts lines 199-236: carries its limit
and whether start() has been invoked (the interval is rescheduled every
5000 ms once started). -/
structure MemoryMonitor where
  maxMemoryMB : ℚ
  started : Bool
deriving Repr, DecidableEq

/-- The MemoryMonitor constructor: not yet started. -/
def MemoryMonitor.new (m : ℚ) : MemoryMonitor := ⟨m, false⟩

/-- MemoryMonitor.start (lines 215-228): a no-op for non-positive limits,
otherwise begins the 5-second sampling interval. -/
def MemoryMonitor.start (mm : MemoryMonitor) : MemoryMonitor :=
  if mm.maxMemoryMB ≤ 0 then mm else { mm with started := true }

/-- Whether the monitor ever aborts, over a heap trajectory giving the
process heap in MB at each 5-second sampling tick: only a started
monitor samples, and it aborts once a sample exceeds the limit
(lines 219-227). -/
def MemoryMonitor.cancels (mm : MemoryMonitor) (heap : Nat → ℚ) : Prop :=
  mm.started = true ∧ ∃ k, heap k > mm.maxMemoryMB

/-- ToolCallTracker, from src/executor.ts lines 161-194. -/
structure ToolCallTracker where
  maxConcurrentToolCalls : Int
  currentCalls : Int
  aborted : Bool
deriving Repr, DecidableEq

/-- The ToolCallTracker constructor. -/
def ToolCallTracker.new (m : Int) : ToolCallTracker := ⟨m, 0, false⟩

/-- ToolCallTracker.startTool (lines 181-189): increment the live count,
abort and return false when it exceeds a positive limit. -/
def ToolCallTracker.startTool (t : ToolCallTracker) : ToolCallTracker × Bool :=
  let t2 := { t with currentCalls := t.currentCalls + 1 }
  if t2.maxConcurrentToolCalls > 0 ∧ t2.currentCalls > t2.maxConcurrentToolCalls then
    ({ t2 with aborted := true }, false)
  else (t2, true)

/-- ToolCallTracker.endTool (lines 191-193). -/
def ToolCallTracker.endTool (t : ToolCallTracker) : ToolCallTracker :=
  { t with currentCalls := max 0 (t.currentCalls - 1) }

/-- Iterated startTool calls with no intervening endTool. -/
def ToolCallTracker.startTools (t : ToolCallTracker) : Nat → ToolCallTracker
  | 0 => t
  | k + 1 => ((t.startTools k).startTool).1

/-- One source of the composite cancel signal assembled by runAgentOnce:
the caller's signal, a duration timer, a memory monitor signal, or a
tool-call tracker signal. -/
inductive GuardSignal where
  | externalSig
  | durationSig (maxMs : ℚ)
  | memorySig (mm : MemoryMonitor)
  | toolCallSig (t : ToolCallTracker)
deriving Repr, DecidableEq

/-- Recognizer for tracker signals. -/
def isToolCallSig : GuardSignal → Bool
  | .toolCallSig _ => true
  | _ => false

/-- The guard state assembled by runAgentOnce before spawning. -/
structure GuardSetup where
  signals : List GuardSignal
  memoryMonitor : Option MemoryMonitor
  toolCallTracker : Option ToolCallTracker
deriving Repr, DecidableEq

/-- Embedding of the resource-limit setup of runAgentOnce
(src/executor.ts lines 522-548): the caller's signal and the duration
signal are pushed; under enforceLimits a MemoryMonitor is constructed
and its signal pushed, but start() is never invoked on it; a
ToolCallTracker is constructed, but its signal is not pushed and no
event handler ever calls startTool or endTool. -/
def setupGuards (hasSignal : Bool) (rl : Option ResourceLimits) : GuardSetup :=
  let s0 : List GuardSignal := if hasSignal then [.externalSig] else []
  let s1 := s0 ++
    (match rl with
     | some r => if qTruthy r.maxDurationMs then [.durationSig (r.maxDurationMs.getD 0)] else []
     | none => [])
  let mm : Option MemoryMonitor :=
    match rl with
    | some r =>
      if qTruthy r.maxMemoryMB ∧ r.enforceLimits = true then
        some (MemoryMonitor.new (r.maxMemoryMB.getD 0))
      else none
    | none => none
  let s2 := s1 ++ (match mm with | some m => [.memorySig m] | none => [])
  let tct : Option ToolCallTracker :=
    match rl with
    | some r =>
      if iTruthy r.maxConcurrentToolCalls ∧ r.enforceLimits = true then
        some (ToolCallTracker.new (r.maxConcurrentToolCalls.getD 0))
      else none
    | none => none
  { signals := s2, memoryMonitor := mm, toolCallTracker := tct }

/-- Whether any memory signal of a guard setup can cancel the run under
a given heap trajectory. -/
def memoryCancellation (g : GuardSetup) (heap : Nat → ℚ) : Prop :=
  ∃ mm, GuardSignal.memorySig mm ∈ g.signals ∧ mm.cancels heap

theorem setupGuards_memory_unstarted (hs : Bool) (rl : Option ResourceLimits) :
    ∀ mm, GuardSignal.memorySig mm ∈ (setupGuards hs rl).signals →
    mm.started = false := by
  intro mm hmem
  simp only [setupGuards, List.mem_append] at hmem
  rcases hmem with (h | h) | h
  · split at h <;> simp at h
  · split at h
    · split at h <;> simp at h
    · simp at h
  · split at h
    · next m heq =>
      simp only [List.mem_singleton] at h
      have hmmm : mm = m := by simpa using h
      subst hmmm
      split at heq
      · split at heq
        · have hnew := Option.some.inj heq
          rw [← hnew]
          rfl
        · simp at heq
      · simp at heq
    · simp at h

theorem setupGuards_no_trackerSignal (hs : Bool) (rl : Option ResourceLimits) :
    (setupGuards hs rl).signals.filter isToolCallSig = [] := by
  simp only [setupGuards, List.filter_append]
  have h1 : (if hs then [GuardSignal.externalSig] else []).filter isToolCallSig = [] := by
    split <;> rfl
  rw [h1]
  have h2 : (match rl with
      | some r => if qTruthy r.maxDurationMs = true
          then [GuardSignal.durationSig (r.maxDurationMs.getD 0)] else []
      | none => ([] : List GuardSignal)).filter isToolCallSig = [] := by
    split
    · split <;> rfl
    · rfl
  rw [h2]
  split <;> rfl

theorem setupGuards_tracker_fresh (hs : Bool) (rl : Option ResourceLimits)
    (t : ToolCallTracker) (h : (setupGuards hs rl).toolCallTracker = some t) :
    t.currentCalls = 0 ∧ t.aborted = false := by
  simp only [setupGuards] at h
  split at h
  · split at h
    · have := Option.some.inj h
      rw [← this]
      exact ⟨rfl, rfl⟩
    · cases h
  · cases h

theorem memoryMonitor_start_cancels (m : ℚ) (heap : Nat → ℚ) :
    ((MemoryMonitor.new m).start).cancels heap ↔ (0 < m ∧ ∃ k, heap k > m) := by
  by_cases hm : m ≤ 0
  · simp only [MemoryMonitor.new, MemoryMonitor.start]
    rw [if_pos (by simpa using hm)]
    constructor
    · rintro ⟨hst, -⟩
      simp at hst
    · rintro ⟨h0, -⟩
      linarith
  · simp only [MemoryMonitor.new, MemoryMonitor.start]
    rw [if_neg (by simpa using hm)]
    unfold MemoryMonitor.cancels
    simp [not_le.mp hm]

theorem startTools_spec (m : Int) : ∀ k : Nat,
    ((ToolCallTracker.new m).startTools k).currentCalls = (k : Int) ∧
    ((ToolCallTracker.new m).startTools k).maxConcurrentToolCalls = m ∧
    (((ToolCallTracker.new m).startTools k).aborted = true ↔ 0 < m ∧ m < (k : Int)) := by
  intro k
  induction k with
  | zero =>
    refine ⟨rfl, rfl, ?_⟩
    constructor
    · intro h
      simp [ToolCallTracker.startTools, ToolCallTracker.new] at h
    · rintro ⟨h0, hlt⟩
      omega
  | succ k ih =>
    obtain ⟨hc, hmax, hab⟩ := ih
    simp only [ToolCallTracker.startTools, ToolCallTracker.startTool]
    split
    · next hcond =>
      rw [hmax, hc] at hcond
      refine ⟨by simp [hc], by simp [hmax], ?_⟩
      simp only []
      constructor
      · intro _
        have h2 := hcond.2
        exact ⟨hcond.1, by push_cast; omega⟩
      · intro _
        trivial
    · next hcond =>
      rw [hmax, hc] at hcond
      refine ⟨by simp [hc], by simp [hmax], ?_⟩
      simp only []
      rw [hab]
      constructor
      · rintro ⟨h0, hlt⟩
        exact ⟨h0, by push_cast; omega⟩
      · rintro ⟨h0, hlt⟩
        refine ⟨h0, ?_⟩
        by_contra hcon
        push_neg at hcon
        push_cast at hcon hlt
        omega

/-- The resource limits of the C2 counterexample: memory and concurrency
caps under enforceLimits. -/
def c2limits : ResourceLimits :=
  { maxMemoryMB := some 100, maxConcurrentToolCalls := some 2, enforceLimits := true }

/-- A heap trajectory constantly above the 100 MB limit. -/
def c2heap : Nat → ℚ := fun _ => 200

/-- C2 counterexample: with enforceLimits, maxMemoryMB = 100 and a heap
that exceeds the limit at every sampling tick, no memory cancellation can
fire because runAgentOnce never starts the monitor it constructs; and
the tool-call tracker it constructs has its signal absent from the
composite and its counter untouched, so the concurrent-tool-call
cancellation can never fire either. -/
theorem resourceGuards_C2_counterexample :
    c2heap 0 > (100 : ℚ) ∧
    ¬ memoryCancellation (setupGuards true (some c2limits)) c2heap ∧
    ((setupGuards true (some c2limits)).memoryMonitor.map MemoryMonitor.started
      = some false) ∧
    (setupGuards true (some c2limits)).signals.filter isToolCallSig = [] ∧
    ((setupGuards true (some c2limits)).toolCallTracker.map
      ToolCallTracker.currentCalls = some 0) := by
  refine ⟨by norm_num [c2heap], ?_, rfl, setupGuards_no_trackerSignal true (some c2limits), rfl⟩
  rintro ⟨mm, hmem, hcanc⟩
  have hf := setupGuards_memory_unstarted true (some c2limits) mm hmem
  have h1 : mm.started = true := hcanc.1
  simp [hf] at h1

/-- C2 amended: runAgentOnce constructs the memory monitor under
enforceLimits and joins its signal, but never invokes start(), so no
execution ever samples the heap or cancels for memory, whatever the
trajectory; it constructs the tool-call tracker but neither joins its
signal nor routes tool events to it, so its counter stays 0 and no
concurrent-tool-call cancellation occurs.  The classes themselves behave
as the claim describes: a started monitor with a positive limit cancels
exactly when some 5-second sample exceeds maxMemoryMB, and the tracker
aborts exactly when live tool calls exceed a positive
maxConcurrentToolCalls. -/
theorem resourceGuards_spec (hs : Bool) (rl : Option ResourceLimits)
    (heap : Nat → ℚ) (m : ℚ) (mi : Int) (k : Nat) :
    ¬ memoryCancellation (setupGuards hs rl) heap ∧
    (setupGuards hs rl).signals.filter isToolCallSig = [] ∧
    (∀ t, (setupGuards hs rl).toolCallTracker = some t →
      t.currentCalls = 0 ∧ t.aborted = false) ∧
    (((MemoryMonitor.new m).start).cancels heap ↔ (0 < m ∧ ∃ j, heap j > m)) ∧
    ((ToolCallTracker.new mi).startTools k).currentCalls = (k : Int) ∧
    (((ToolCallTracker.new mi).startTools k).aborted = true ↔ 0 < mi ∧ mi < (k : Int)) := by
  refine ⟨?_, setupGuards_no_trackerSignal hs rl, setupGuards_tracker_fresh hs rl,
    memoryMonitor_start_cancels m heap, (startTools_spec mi k).1, (startTools_spec mi k).2.2⟩
  rintro ⟨mm, hmem, hcanc⟩
  have hf := setupGuards_memory_unstarted hs rl mm hmem
  have h1 : mm.started = true := hcanc.1
  simp [hf] at h1

/-- Witness for resourceGuards_spec: the concrete enforced limits, an
exceeding heap, and three iterated tool calls against a limit of two. -/
theorem resourceGuards_spec_witness :
    ¬ memoryCancellation (setupGuards true (some c2limits)) c2heap ∧
    (ToolCallTracker.new 2).startTools 3 =
      { maxConcurrentToolCalls := 2, currentCalls := 3, aborted := true } ∧
    ((setupGuards false (some c2limits)).toolCallTracker.map
      ToolCallTracker.aborted = some false) := by
  refine ⟨(resourceGuards_spec true (some c2limits) c2heap 100 2 3).1, rfl, ?_⟩
  have h := (resourceGuards_spec false (some c2limits) c2heap 100 2 3).2.2.1
    (ToolCallTracker.new 2) rfl
  rw [show (setupGuards false (some c2limits)).toolCallTracker
      = some (ToolCallTracker.new 2) from rfl]
  simp only [Option.map]
  rw [h.2]

/- ===================================================================
   Event processing and progress state of runAgentOnce, from
   src/executor.ts lines 495-516 and 598-733.  Text is modelled as
   lists of unicode scalars; usage accumulation and the per-tool usage
   counters are carried by the source but not claimed, and are omitted.
   =================================================================== -/

/-- One part of a message content array: a text part or any other kind. -/
inductive ContentPart where
  | text (s : List Char)
  | other
deriving Repr, DecidableEq

/-- A message from the child event stream, restricted to the fields the
executor reads: role, content parts, and the API error carried when
stopReason is error (stopErr holds the errorMessage then). -/
structure PMessage where
  role : String
  content : List ContentPart := []
  stopErr : Option (List Char) := none
deriving Repr, DecidableEq

/-- One parsed line of the newline-delimited JSON stream.  The
argsPreview of a tool_execution_start is the result of
extractToolArgsPreview on the event args, abstracted here as the event
payload.  Unparseable or unrecognized lines are malformed and skipped. -/
inductive JEvent where
  | messageEnd (msg : PMessage)
  | toolExecutionStart (toolName : String) (argsPreview : String)
  | toolExecutionEnd
  | toolResultEnd (msg : PMessage)
  | malformed
deriving Repr, DecidableEq

/-- Whitespace for the JS trim test on text parts. -/
def isWsp (c : Char) : Bool :=
  c = ' ' ∨ c = '\t' ∨ c = '\n' ∨ c = '\r'

/-- The 100-character preview with ellipsis pushed onto recentOutput
(src/executor.ts lines 636-640). -/
def previewOf (s : List Char) : List Char :=
  if s.length > 100 then s.take 100 ++ "...".toList else s

/-- Bounded FIFO push: append, and drop the oldest entry when the
capacity is exceeded (the push-then-shift idiom of the source). -/
def pushFifo {α : Type} (cap : Nat) (q : List α) (x : α) : List α :=
  if (q ++ [x]).length > cap then (q ++ [x]).tail else q ++ [x]

/-- The mutable progress and accumulation state of one runAgentOnce
invocation. -/
structure ExecState where
  messages : List PMessage := []
  recentTools : List (String × String) := []
  recentOutput : List (List Char) := []
  toolCount : Nat := 0
  currentTool : Option String := none
  currentToolArgs : Option String := none
  apiError : List Char := []
deriving Repr, DecidableEq

/-- The initial state built at lines 495-511. -/
def initExecState : ExecState := {}

/-- The per-text-part preview push of the assistant branch
(src/executor.ts lines 634-645): parts whose trim is non-blank push a
100-character preview onto the capacity-5 recentOutput FIFO. -/
def pushTextPreview (st : ExecState) (part : ContentPart) : ExecState :=
  match part with
  | .text t =>
    if t.any (fun c => !(isWsp c)) then
      { st with recentOutput := pushFifo 5 st.recentOutput (previewOf t) }
    else st
  | .other => st

/-- Processing of one recognized event (the processLine body,
src/executor.ts lines 598-687).  A message_end from the assistant
records a non-empty errorMessage, then pushes a preview for each text
part with non-blank trim onto the capacity-5 recentOutput;
tool_execution_end pushes the pending tool onto the capacity-10
recentTools. -/
def processEvent (s : ExecState) (e : JEvent) : ExecState :=
  match e with
  | .malformed => s
  | .messageEnd msg =>
    let s := { s with messages := s.messages ++ [msg] }
    if msg.role = "assistant" then
      let s :=
        match msg.stopErr with
        | some em => if em ≠ [] then { s with apiError := em } else s
        | none => s
      msg.content.foldl pushTextPreview s
    else s
  | .toolExecutionStart tname args =>
    { s with currentTool := some tname, currentToolArgs := some args }
  | .toolExecutionEnd =>
    match s.currentTool with
    | some tname =>
      { s with
        recentTools := pushFifo 10 s.recentTools (tname, s.currentToolArgs.getD ""),
        toolCount := s.toolCount + 1,
        currentTool := none,
        currentToolArgs := none }
    | none => { s with currentTool := none, currentToolArgs := none }
  | .toolResultEnd msg => { s with messages := s.messages ++ [msg] }

/-- The state after processing a whole event stream. -/
def runStates (events : List JEvent) : ExecState :=
  events.foldl processEvent initExecState

example :
    (runStates [.toolExecutionStart "read" "a.txt", .toolExecutionEnd]).recentTools
      = [("read", "a.txt")] := rfl

example :
    (runStates [.messageEnd ({ role := "assistant",
                               content := [.text "hello".toList] } : PMessage)]).recentOutput
      = ["hello".toList] := rfl

theorem pushFifo_length {α : Type} (cap : Nat) (q : List α) (x : α)
    (h : q.length ≤ cap) : (pushFifo cap q x).length ≤ cap := by
  simp only [pushFifo]
  split
  · next hgt =>
    rw [List.length_tail]
    simp at hgt ⊢
    omega
  · next hle =>
    simp at hle ⊢
    omega

theorem pushFifo_mem {α : Type} (cap : Nat) (q : List α) (x y : α)
    (h : y ∈ pushFifo cap q x) : y ∈ q ∨ y = x := by
  simp only [pushFifo] at h
  have hy : y ∈ q ++ [x] := by
    split at h
    · exact List.mem_of_mem_tail h
    · exact h
  rcases List.mem_append.mp hy with h1 | h1
  · exact Or.inl h1
  · exact Or.inr (by simpa using h1)

theorem previewOf_length (t : List Char) : (previewOf t).length ≤ 103 := by
  simp only [previewOf]
  split
  · next hgt =>
    simp [List.length_take]
  · next hle =>
    simp at hle
    omega

/-- The FIFO caps and preview bound maintained by the progress state. -/
def CapsOk (s : ExecState) : Prop :=
  s.recentTools.length ≤ 10 ∧ s.recentOutput.length ≤ 5 ∧
  ∀ p ∈ s.recentOutput, p.length ≤ 103

theorem capsOk_pushTextPreview (s : ExecState) (part : ContentPart)
    (h : CapsOk s) : CapsOk (pushTextPreview s part) := by
  obtain ⟨h1, h2, h3⟩ := h
  cases part with
  | other => exact ⟨h1, h2, h3⟩
  | text t =>
    simp only [pushTextPreview]
    split
    · refine ⟨h1, pushFifo_length 5 _ _ h2, ?_⟩
      intro p hp
      rcases pushFifo_mem 5 _ _ p hp with hq | hq
      · exact h3 p hq
      · rw [hq]
        exact previewOf_length t
    · exact ⟨h1, h2, h3⟩

theorem capsOk_fold (parts : List ContentPart) :
    ∀ s : ExecState, CapsOk s → CapsOk (parts.foldl pushTextPreview s) := by
  induction parts with
  | nil => exact fun s h => h
  | cons part parts ih =>
    intro s h
    exact ih _ (capsOk_pushTextPreview s part h)

theorem capsOk_processEvent (s : ExecState) (e : JEvent) (h : CapsOk s) :
    CapsOk (processEvent s e) := by
  obtain ⟨h1, h2, h3⟩ := h
  cases e with
  | malformed => exact ⟨h1, h2, h3⟩
  | toolResultEnd msg => exact ⟨h1, h2, h3⟩
  | toolExecutionStart tname args => exact ⟨h1, h2, h3⟩
  | toolExecutionEnd =>
    simp only [processEvent]
    cases s.currentTool with
    | some tname => exact ⟨pushFifo_length 10 _ _ h1, h2, h3⟩
    | none => exact ⟨h1, h2, h3⟩
  | messageEnd msg =>
    simp only [processEvent]
    split
    · split
      · next em hem =>
        split
        · exact capsOk_fold msg.content _ ⟨h1, h2, h3⟩
        · exact capsOk_fold msg.content _ ⟨h1, h2, h3⟩
      · exact capsOk_fold msg.content _ ⟨h1, h2, h3⟩
    · exact ⟨h1, h2, h3⟩

theorem capsOk_runStates (events : List JEvent) : CapsOk (runStates events) := by
  suffices h : ∀ s, CapsOk s → CapsOk (events.foldl processEvent s) by
    exact h initExecState ⟨by simp [initExecState], by simp [initExecState],
      by simp [initExecState]⟩
  induction events with
  | nil => exact fun s h => h
  | cons e es ih =>
    intro s h
    exact ih _ (capsOk_processEvent s e h)

/-- C9: throughout any runAgentOnce execution, every TaskProgress
snapshot delivered to onProgress satisfies the FIFO caps — recentTools
holds at most 10 entries, recentOutput at most 5, each recentOutput
preview is at most 100 characters plus the 3-character ellipsis — and a
push onto a full recentOutput drops the oldest entry.  Every snapshot is
a shallow copy of the state after some prefix of the recognized events
(the killProc and final emissions copy the state unchanged), and every
prefix of an event stream is itself an event stream, so quantifying over
all event lists covers every snapshot. -/
theorem taskProgress_fifo_caps (events : List JEvent) (q : List (List Char))
    (x : List Char) :
    (runStates events).recentTools.length ≤ 10 ∧
    (runStates events).recentOutput.length ≤ 5 ∧
    (∀ p ∈ (runStates events).recentOutput, p.length ≤ 103) ∧
    (q.length = 5 → pushFifo 5 q x = (q ++ [x]).tail) := by
  obtain ⟨h1, h2, h3⟩ := capsOk_runStates events
  refine ⟨h1, h2, h3, ?_⟩
  intro hq
  simp only [pushFifo]
  rw [if_pos]
  simp [hq]

/-- Witness for taskProgress_fifo_caps: seven assistant outputs leave at
most five previews, and pushing onto a full five-entry FIFO drops the
oldest. -/
theorem taskProgress_fifo_caps_witness :
    (runStates (List.replicate 7 (JEvent.messageEnd
      ({ role := "assistant", content := [.text "output".toList] } : PMessage)))).recentOutput.length ≤ 5 ∧
    pushFifo 5 ["a".toList, "b".toList, "c".toList, "d".toList, "e".toList] "f".toList
      = ["b".toList, "c".toList, "d".toList, "e".toList, "f".toList] := by
  constructor
  · exact (taskProgress_fifo_caps _ [] []).2.1
  · have h := (taskProgress_fifo_caps []
      ["a".toList, "b".toList, "c".toList, "d".toList, "e".toList]
      "f".toList).2.2.2 (by rfl)
    rw [h]
    rfl

/-- First text part of a content array (getFinalOutput inner loop). -/
def firstTextPart : List ContentPart → Option (List Char)
  | [] => none
  | .text t :: _ => some t
  | .other :: rest => firstTextPart rest

/-- Scan from the most recent message for an assistant message carrying
a text part (src/executor.ts lines 279-289), on the reversed list. -/
def getFinalOutputAux : List PMessage → List Char
  | [] => []
  | m :: rest =>
    if m.role = "assistant" then
      match firstTextPart m.content with
      | some t => t
      | none => getFinalOutputAux rest
    else getFinalOutputAux rest

/-- Embedding of getFinalOutput: the first text part of the most recent
assistant message that has one, or empty. -/
def getFinalOutput (messages : List PMessage) : List Char :=
  getFinalOutputAux messages.reverse

/-- The provenance of the error field of a TaskResult: the child's
stderr text, the synthesized exit-code message, or the API error
extracted from a message_end event. -/
inductive TaskError where
  | stderrText (s : List Char)
  | exitCodeMsg (code : Int)
  | apiErrorMsg (s : List Char)
deriving Repr, DecidableEq

/-- TaskResult restricted to the fields the claims are about. -/
structure TaskResult where
  exitCode : Int
  output : List Char
  truncated : Bool
  error : Option TaskError := none
  aborted : Bool
deriving Repr, DecidableEq

/-- The executor options that decide the result shape: whether the
caller passed an abort signal, and the resource limits. -/
structure ExecOptions where
  hasSignal : Bool
  resourceLimits : Option ResourceLimits := none
deriving Repr, DecidableEq

/-- One run of the child as the executor observes it: whether the
caller's signal aborted (before or during the run), whether the
duration guard fired (killing the child through the composite signal
passed to spawn), the recognized event stream, and the child's exit
code and stderr as resolved by the close and error handlers. -/
structure RunScenario where
  externalFired : Bool
  durationFired : Bool
  events : List JEvent
  childExitCode : Int
  stderr : List Char
deriving Repr, DecidableEq

/-- Embedding of the result assembly of runAgentOnce (src/executor.ts
lines 586-774).  The killProc handler that sets the aborted status is
registered only on the caller's signal (lines 713-732), never on the
composite, so aborted reflects only hasSignal and externalFired; a
resource-limit abort reaches the child through the spawn signal but
leaves the aborted flag false and contributes no reason string to the
error field (lines 738-763).  mkError0 is the stderr-or-exit-code error
of lines 755-757. -/
def mkError0 (scen : RunScenario) (aborted : Bool) : Option TaskError :=
  if scen.childExitCode ≠ 0 ∧ aborted = false then
    some (if scen.stderr ≠ [] then .stderrText scen.stderr
          else .exitCodeMsg scen.childExitCode)
  else none

/-- The API-error override of lines 759-763: when an API error was seen
and no error is set yet, record it (and force exit code 1). -/
def mkError1 (scen : RunScenario) (aborted : Bool) (apiErr : List Char) :
    Option TaskError :=
  if apiErr ≠ [] ∧ mkError0 scen aborted = none then some (.apiErrorMsg apiErr)
  else mkError0 scen aborted

def runAgentOnce (opts : ExecOptions) (scen : RunScenario) : TaskResult :=
  let st := runStates scen.events
  let tr := truncateOutput (getFinalOutput st.messages) MAX_OUTPUT_BYTES MAX_OUTPUT_LINES
  let aborted := opts.hasSignal && scen.externalFired
  let exit1 : Int :=
    if st.apiError ≠ [] ∧ mkError0 scen aborted = none then 1 else scen.childExitCode
  { exitCode := exit1, output := tr.1, truncated := tr.2,
    error := mkError1 scen aborted st.apiError, aborted := aborted }

/-- The options of the C1 counterexample: no caller signal, a duration
limit of 1000 ms. -/
def c1opts : ExecOptions :=
  { hasSignal := false, resourceLimits := some { maxDurationMs := some 1000 } }

/-- The run of the C1 counterexample: the duration guard fires and kills
the child, which dies with exit code 1 and empty stderr. -/
def c1scen : RunScenario :=
  { externalFired := false, durationFired := true, events := [],
    childExitCode := 1, stderr := [] }

/-- C1 counterexample: the duration guard is armed and fires (the only
signal in the composite), yet the result is not marked aborted and its
error is the synthesized exit-code message, not the cancellation reason
the claim requires. -/
theorem runAgentOnce_C1_counterexample :
    c1scen.durationFired = true ∧
    (setupGuards c1opts.hasSignal c1opts.resourceLimits).signals
      = [.durationSig 1000] ∧
    (runAgentOnce c1opts c1scen).aborted = false ∧
    (runAgentOnce c1opts c1scen).error = some (.exitCodeMsg 1) := by
  refine ⟨rfl, rfl, rfl, rfl⟩


theorem mkError1_of_exit (scen : RunScenario) (apiErr : List Char)
    (hexit : scen.childExitCode ≠ 0) :
    mkError1 scen false apiErr =
      some (if scen.stderr ≠ [] then .stderrText scen.stderr
            else .exitCodeMsg scen.childExitCode) := by
  have h0 : mkError0 scen false = some (if scen.stderr ≠ [] then
      .stderrText scen.stderr else .exitCodeMsg scen.childExitCode) :=
    if_pos ⟨hexit, rfl⟩
  simp only [mkError1, h0]
  rw [if_neg]
  rintro ⟨-, hc⟩
  cases hc

theorem mkError1_cases (scen : RunScenario) (aborted : Bool) (apiErr : List Char)
    (e : TaskError) (he : mkError1 scen aborted apiErr = some e) :
    e = .stderrText scen.stderr ∨ e = .exitCodeMsg scen.childExitCode ∨
    e = .apiErrorMsg apiErr := by
  simp only [mkError1] at he
  split at he
  · right; right
    exact (Option.some.inj he).symm
  · simp only [mkError0] at he
    split at he
    · have h1 := Option.some.inj he
      split at h1
      · left; exact h1.symm
      · right; left; exact h1.symm
    · cases he

/-- C1 amended: the result's aborted flag is true iff the caller
supplied a cancel signal and that signal fired; a resource-limit
cancellation (duration, memory, or tool-call) is not reflected in the
flag, and when the killed child exits non-zero the error field carries
the child's stderr or the synthesized exit-code message — the limit
reason string is never recorded: every error is the stderr text, the
exit-code message, or the API error from the event stream. -/
theorem runAgentOnce_aborted_spec (opts : ExecOptions) (scen : RunScenario) :
    ((runAgentOnce opts scen).aborted = true ↔
      (opts.hasSignal = true ∧ scen.externalFired = true)) ∧
    (scen.externalFired = false → scen.childExitCode ≠ 0 →
      (runAgentOnce opts scen).aborted = false ∧
      (runAgentOnce opts scen).error =
        some (if scen.stderr ≠ [] then .stderrText scen.stderr
              else .exitCodeMsg scen.childExitCode)) ∧
    (∀ e, (runAgentOnce opts scen).error = some e →
      (e = .stderrText scen.stderr ∨ e = .exitCodeMsg scen.childExitCode ∨
       e = .apiErrorMsg (runStates scen.events).apiError)) := by
  refine ⟨?_, ?_, ?_⟩
  · show ((opts.hasSignal && scen.externalFired) = true ↔ _)
    simp [Bool.and_eq_true]
  · intro hext hexit
    constructor
    · show (opts.hasSignal && scen.externalFired) = false
      simp [hext]
    · show mkError1 scen (opts.hasSignal && scen.externalFired)
        (runStates scen.events).apiError = _
      rw [hext, Bool.and_false]
      exact mkError1_of_exit scen _ hexit
  · intro e he
    have he2 : mkError1 scen (opts.hasSignal && scen.externalFired)
        (runStates scen.events).apiError = some e := he
    exact mkError1_cases scen _ _ e he2

/-- Witness for runAgentOnce_aborted_spec at the concrete duration-kill
scenario: not aborted, and the error is the exit-code message. -/
theorem runAgentOnce_aborted_spec_witness :
    (runAgentOnce c1opts c1scen).aborted = false ∧
    (runAgentOnce c1opts c1scen).error = some (.exitCodeMsg 1) := by
  have h := (runAgentOnce_aborted_spec c1opts c1scen).2.1 rfl (by decide)
  refine ⟨h.1, ?_⟩
  rw [h.2]
  rfl
